import Mathlib

/-!
Verification of the quantity-parsing-and-scaling engine of the
obsidian-recipe-view plugin, together with the plugin wiring in
`src/main.ts` (settings loading and view toggling).

The engine itself (Scanner, Number Parser, Classifier, Scaler, Renderer)
is specified in the design document but its source file is not part of
the available sources, so its definitions below are modelled from the
specification text; the definitions for `loadSettings`, `toggleView`
and `DEFAULT_SETTINGS` are translated from `src/main.ts`.
-/

namespace RecipeView

/-- Modelled from the spec: the notation family a numeral was written in
(section 3, `formatKind`).  The engine source is not available, so the seven
format kinds are taken verbatim from the data model. -/
inductive FormatKind where
  | integer
  | decimal
  | textFraction
  | unicodeFraction
  | mixedTextNumber
  | mixedUnicodeNumber
  | dashSeparatedMixed
deriving DecidableEq

/-- Modelled from the spec: whether the whole and fractional parts of a mixed
number were joined by a space or a dash in the source (section 3). -/
inductive SeparatorStyle where
  | space
  | dash
deriving DecidableEq

/-- Modelled from the spec: manual-marker override channel for a token
(section 3, `overrideMode`). -/
inductive OverrideMode where
  | noOverride
  | forceParse
  | forceSkip
deriving DecidableEq

/-- The ten ASCII digit characters, by value; values ≥ 10 are mapped to a
non-digit placeholder (never produced by the renderer). -/
def digitChar (d : Nat) : Char :=
  match d with
  | 0 => '0' | 1 => '1' | 2 => '2' | 3 => '3' | 4 => '4'
  | 5 => '5' | 6 => '6' | 7 => '7' | 8 => '8' | 9 => '9'
  | _ => '*'

/-- Numeric value of a digit character. -/
def digitVal (c : Char) : Nat := c.toNat - 48

/-- Value of a digit string, most significant digit first. -/
def digitsToNat (ds : List Char) : Nat :=
  ds.foldl (fun a c => 10 * a + digitVal c) 0

/-- Fuelled digit printer; the fuel only bounds the recursion depth and any
fuel of at least one digit-length suffices. -/
def natCharsAux : Nat → Nat → List Char
  | 0, _ => []
  | fuel + 1, n =>
    if n < 10 then [digitChar n]
    else natCharsAux fuel (n / 10) ++ [digitChar (n % 10)]

/-- Decimal digit representation of a natural number, most significant digit
first, no leading zeros (except for `0` itself). -/
def natChars (n : Nat) : List Char := natCharsAux (n + 1) n

/-- Split a character list into its maximal leading digit run and the rest. -/
def splitDigits (cs : List Char) : List Char × List Char :=
  (cs.takeWhile Char.isDigit, cs.dropWhile Char.isDigit)

/-- Modelled from the spec: the fixed glyph→rational table for
single-codepoint vulgar-fraction glyphs (section 4.2, `UnicodeFraction`).
The engine source is missing; the table is seeded with the standard Unicode
vulgar-fraction codepoints. -/
def glyphTable : List (Char × ℚ) :=
  [('½', 1/2), ('⅓', 1/3), ('⅔', 2/3), ('¼', 1/4), ('¾', 3/4),
   ('⅕', 1/5), ('⅖', 2/5), ('⅗', 3/5), ('⅘', 4/5), ('⅙', 1/6),
   ('⅚', 5/6), ('⅛', 1/8), ('⅜', 3/8), ('⅝', 5/8), ('⅞', 7/8)]

/-- Look up the value of a character in a glyph table. -/
def glyphValueIn : List (Char × ℚ) → Char → Option ℚ
  | [], _ => none
  | (g, v) :: rest, c => if g = c then some v else glyphValueIn rest c

/-- Value of a vulgar-fraction glyph, if the character is one. -/
def glyphValue? (c : Char) : Option ℚ := glyphValueIn glyphTable c

/-- Look up a glyph by its value in a glyph table. -/
def glyphForIn : List (Char × ℚ) → ℚ → Option Char
  | [], _ => none
  | (g, v) :: rest, q => if v = q then some g else glyphForIn rest q

/-- Glyph for an exact rational value, if the table has one. -/
def glyphFor (q : ℚ) : Option Char := glyphForIn glyphTable q

/-- Modelled from the spec: grammar of the `Integer` format (section 4.2):
a literal integer, value n/1.  Returns match length and exact value. -/
def matchInteger (cs : List Char) : Option (Nat × ℚ) :=
  if (splitDigits cs).1 = [] then none
  else some ((splitDigits cs).1.length, (digitsToNat (splitDigits cs).1 : ℚ))

/-- Modelled from the spec: grammar of the `Decimal` format (section 4.2):
a literal decimal turned into an exact rational via fixed-point scaling. -/
def matchDecimal (cs : List Char) : Option (Nat × ℚ) :=
  if (splitDigits cs).1 = [] then none
  else
    match (splitDigits cs).2 with
    | c :: rest =>
      if c = '.' then
        if (splitDigits rest).1 = [] then none
        else
          some ((splitDigits cs).1.length + 1 + (splitDigits rest).1.length,
            (digitsToNat (splitDigits cs).1 : ℚ) +
              (digitsToNat (splitDigits rest).1 : ℚ) /
                (10 ^ (splitDigits rest).1.length : ℚ))
      else none
    | [] => none

/-- Modelled from the spec: grammar of a text fraction part `a/b`
(section 4.2, `TextFraction` and the fraction part of mixed formats). -/
def matchFracPart (cs : List Char) : Option (Nat × ℚ) :=
  if (splitDigits cs).1 = [] then none
  else
    match (splitDigits cs).2 with
    | c :: rest =>
      if c = '/' then
        if (splitDigits rest).1 = [] then none
        else
          some ((splitDigits cs).1.length + 1 + (splitDigits rest).1.length,
            (digitsToNat (splitDigits cs).1 : ℚ) /
              (digitsToNat (splitDigits rest).1 : ℚ))
      else none
    | [] => none

/-- Modelled from the spec: grammar of the `UnicodeFraction` format
(section 4.2): a single vulgar-fraction glyph. -/
def matchGlyph (cs : List Char) : Option (Nat × ℚ) :=
  match cs with
  | [] => none
  | c :: _ => (glyphValue? c).map (fun q => (1, q))

/-- Modelled from the spec: grammar of the `MixedTextNumber` format
(section 4.2): whole + space + `a/b`. -/
def matchMixedText (cs : List Char) : Option (Nat × ℚ) :=
  if (splitDigits cs).1 = [] then none
  else
    match (splitDigits cs).2 with
    | c :: rest =>
      if c = ' ' then
        (matchFracPart rest).map
          (fun p => ((splitDigits cs).1.length + 1 + p.1,
            (digitsToNat (splitDigits cs).1 : ℚ) + p.2))
      else none
    | [] => none

/-- Modelled from the spec: grammar of the `MixedUnicodeNumber` format
(section 4.2): whole, optional space, vulgar-fraction glyph. -/
def matchMixedUnicode (cs : List Char) : Option (Nat × ℚ) :=
  if (splitDigits cs).1 = [] then none
  else
    match (splitDigits cs).2 with
    | c :: rest =>
      if c = ' ' then
        (matchGlyph rest).map
          (fun p => ((splitDigits cs).1.length + 1 + p.1,
            (digitsToNat (splitDigits cs).1 : ℚ) + p.2))
      else
        (matchGlyph (c :: rest)).map
          (fun p => ((splitDigits cs).1.length + p.1,
            (digitsToNat (splitDigits cs).1 : ℚ) + p.2))
    | [] => none

/-- Modelled from the spec: grammar of the `DashSeparatedMixed` format
(section 4.2): whole, dash, fraction part in text or unicode form. -/
def matchDashMixed (cs : List Char) : Option (Nat × ℚ) :=
  if (splitDigits cs).1 = [] then none
  else
    match (splitDigits cs).2 with
    | c :: rest =>
      if c = '-' then
        match matchFracPart rest with
        | some p =>
          some ((splitDigits cs).1.length + 1 + p.1,
            (digitsToNat (splitDigits cs).1 : ℚ) + p.2)
        | none =>
          (matchGlyph rest).map
            (fun p => ((splitDigits cs).1.length + 1 + p.1,
              (digitsToNat (splitDigits cs).1 : ℚ) + p.2))
      else none
    | [] => none

/-- Dispatch from a format kind to its grammar matcher. -/
def matchFmt (f : FormatKind) (cs : List Char) : Option (Nat × ℚ) :=
  match f with
  | .integer => matchInteger cs
  | .decimal => matchDecimal cs
  | .textFraction => matchFracPart cs
  | .unicodeFraction => matchGlyph cs
  | .mixedTextNumber => matchMixedText cs
  | .mixedUnicodeNumber => matchMixedUnicode cs
  | .dashSeparatedMixed => matchDashMixed cs

/-- The seven candidate formats, in tie-break priority order. -/
def formats : List FormatKind :=
  [.dashSeparatedMixed, .mixedTextNumber, .mixedUnicodeNumber,
   .decimal, .textFraction, .unicodeFraction, .integer]

/-- One step of the longest-match fold: keep whichever parse is longer. -/
def pickLonger (acc : Option (FormatKind × Nat × ℚ)) (f : FormatKind)
    (cs : List Char) : Option (FormatKind × Nat × ℚ) :=
  match matchFmt f cs with
  | none => acc
  | some (n, v) =>
    match acc with
    | none => some (f, n, v)
    | some (g, m, w) => if m < n then some (f, n, v) else some (g, m, w)

/-- Modelled from the spec: the candidate numeral match at a position, "using
the longest valid grammar for any of the seven supported formats", ties
"resolved by preferring the longest total match" (sections 4.1 and 4.2). -/
def bestMatch (cs : List Char) : Option (FormatKind × Nat × ℚ) :=
  formats.foldl (fun acc f => pickLonger acc f cs) none

/-- Modelled from the spec: the engine's immutable configuration (section 6):
the unit lexicon and the unicode-fraction rendering setting.  The per-unit
fraction/decimal display-preference table is left out: the spec leaves it
"explicitly ambiguous" (section 9) and rules 1-6 of section 4.5 give every
non-integral value the fraction rendering. -/
structure EngineConfig where
  unitLexicon : List (List Char)
  renderUnicodeFractions : Bool
deriving DecidableEq

/-- Modelled from the spec: a manual marker span, given to the Scanner as an
explicit token-override channel (sections 4.1 and 9); `force = true` is a
`data-qty-parse` region, `force = false` a `data-qty-no-parse` region. -/
structure MarkerRegion where
  start : Nat
  stop : Nat
  force : Bool
deriving DecidableEq

/-- Modelled from the spec: a detected numeral occurrence (section 3,
`QuantityToken`).  `span` is represented by `start` and `len`
(so the exclusive end is `start + len`). -/
structure QuantityToken where
  start : Nat
  len : Nat
  rawText : List Char
  value : ℚ
  formatKind : FormatKind
  separatorStyle : Option SeparatorStyle
  unitText : Option (List Char)
  overrideMode : OverrideMode
deriving DecidableEq

/-- Separator style recorded for a token, from its format kind and raw text:
a dash-separated mixed number records a dash, the other mixed forms record a
space when one is present in the source. -/
def sepOf (f : FormatKind) (raw : List Char) : Option SeparatorStyle :=
  match f with
  | .dashSeparatedMixed => some .dash
  | .mixedTextNumber => some .space
  | .mixedUnicodeNumber =>
    if raw.any (fun c => c = ' ') then some .space else none
  | _ => none

/-- Modelled from the spec: the unit-adjacency rule (section 4.1): the
candidate is "immediately followed (after at most one whitespace character)
by a substring recognized in the unit lexicon". -/
def unitFollows (lex : List (List Char)) (tail : List Char) : Bool :=
  lex.any (fun u => !u.isEmpty && u.isPrefixOf tail) ||
    (match tail with
     | c :: rest => c.isWhitespace && lex.any (fun u => !u.isEmpty && u.isPrefixOf rest)
     | [] => false)

/-- Modelled from the spec (section 4.3, Classifier): the lexicon entry
matched by the unit-adjacency rule, recorded in `unitText`; absent when the
token was accepted by the start-of-text rule alone. -/
def unitOf (lex : List (List Char)) (tail : List Char) : Option (List Char) :=
  match lex.find? (fun u => !u.isEmpty && u.isPrefixOf tail) with
  | some u => some u
  | none =>
    match tail with
    | c :: rest =>
      if c.isWhitespace then lex.find? (fun u => !u.isEmpty && u.isPrefixOf rest)
      else none
    | [] => none

/-- Does the candidate span `[pos, pos+n)` overlap the region? -/
def overlapsRegion (r : MarkerRegion) (pos n : Nat) : Bool :=
  decide (pos < r.stop) && decide (r.start < pos + n)

/-- Is the candidate span `[pos, pos+n)` contained in the region? -/
def insideRegion (r : MarkerRegion) (pos n : Nat) : Bool :=
  decide (r.start ≤ pos) && decide (pos + n ≤ r.stop)

/-- Modelled from the spec: the Scanner's acceptance rule (section 4.1): a
candidate touching a manual-no-parse marker is always rejected; one inside a
manual-parse marker is always accepted; otherwise it is accepted when it
begins the block of text being scanned or is followed by a unit. -/
def acceptCandidate (cfg : EngineConfig) (regs : List MarkerRegion)
    (pos n : Nat) (tail : List Char) : Bool :=
  if regs.any (fun r => !r.force && overlapsRegion r pos n) then false
  else if regs.any (fun r => r.force && insideRegion r pos n) then true
  else pos == 0 || unitFollows cfg.unitLexicon tail

/-- Override mode recorded on an emitted token. -/
def modeOf (regs : List MarkerRegion) (pos n : Nat) : OverrideMode :=
  if regs.any (fun r => !r.force && overlapsRegion r pos n) then .forceSkip
  else if regs.any (fun r => r.force && insideRegion r pos n) then .forceParse
  else .noOverride

/-- Modelled from the spec: the Scanner (section 4.1): scan left to right; at
each position attempt the longest candidate match; on acceptance resume
immediately after the accepted span, otherwise advance one character.  The
first argument is recursion fuel: any fuel at least the length of the
remaining text gives the scan's result. -/
def scanAux (cfg : EngineConfig) (regs : List MarkerRegion) :
    Nat → List Char → Nat → List QuantityToken
  | 0, _, _ => []
  | _ + 1, [], _ => []
  | fuel + 1, c :: rest, pos =>
    match bestMatch (c :: rest) with
    | some (f, n, v) =>
      if 1 ≤ n ∧
          acceptCandidate cfg regs pos n ((c :: rest).drop n) = true then
        { start := pos, len := n, rawText := (c :: rest).take n, value := v,
          formatKind := f,
          separatorStyle := sepOf f ((c :: rest).take n),
          unitText := unitOf cfg.unitLexicon ((c :: rest).drop n),
          overrideMode := modeOf regs pos n } ::
          scanAux cfg regs fuel ((c :: rest).drop n) (pos + n)
      else scanAux cfg regs fuel rest (pos + 1)
    | none => scanAux cfg regs fuel rest (pos + 1)

/-- The Scanner over a whole text block. -/
def scan (cfg : EngineConfig) (regs : List MarkerRegion)
    (cs : List Char) : List QuantityToken :=
  scanAux cfg regs cs.length cs 0

/-- Modelled from the spec: the Scaler (section 4.4): the new exact rational
value × factor.  `ℚ` keeps every value as a reduced fraction, so the output
is "a new exact rational = value × factor, fully reduced". -/
def scale (v k : ℚ) : ℚ := v * k

/-- Modelled from the spec: round a fractional remainder "to the nearest
multiple of 1/16 using round-half-up as the tie rule" (section 4.5, rule 2);
the result is the numerator over 16. -/
def roundSixteenths (r : ℚ) : ℤ := ⌊16 * r + 1/2⌋

/-- Modelled from the spec: split a scaled value into whole part and rounded
fractional remainder and re-normalize ("a remainder rounding up to 1
increments the whole part and resets the remainder to 0", section 4.5). -/
def renderParts (q : ℚ) : ℤ × Nat :=
  let w := ⌊q⌋
  let t := roundSixteenths (q - (w : ℚ))
  if t = 16 then (w + 1, 0) else (w, t.toNat)

/-- Literal `a/b` text form of a fraction, from its reduced numerator and
denominator. -/
def fracChars (q : ℚ) : List Char :=
  natChars q.num.toNat ++ '/' :: natChars q.den

/-- Modelled from the spec: the Renderer's output text for a scaled value
(section 4.5, rules 1-4): an integral value as a bare integer; otherwise a
mixed number over sixteenths, the fraction part as a vulgar-fraction glyph
when the setting is on and the table has one, otherwise literal `a/b`. -/
def renderValue (uni : Bool) (q : ℚ) : List Char :=
  match renderParts q with
  | (w, m) =>
    if m = 0 then natChars w.toNat
    else
      match if uni then glyphFor ((m : ℚ) / 16) else none with
      | some g => if w = 0 then [g] else natChars w.toNat ++ [g]
      | none =>
        if w = 0 then fracChars ((m : ℚ) / 16)
        else natChars w.toNat ++ ' ' :: fracChars ((m : ℚ) / 16)

/-- Modelled from the spec: the per-token output of the pipeline
(section 3, `RenderedQuantity`): replacement text and the changed flag. -/
structure RenderedQuantity where
  start : Nat
  len : Nat
  text : List Char
  changed : Bool
deriving DecidableEq

/-- Modelled from the spec: the Renderer per token (section 4.5): the scaled
value is rendered, and `changed` is "true iff the scaled rational is
numerically unequal to the original rational" (rule 6). -/
def renderToken (cfg : EngineConfig) (k : ℚ) (t : QuantityToken) :
    RenderedQuantity :=
  { start := t.start, len := t.len,
    text := renderValue cfg.renderUnicodeFractions (scale t.value k),
    changed := decide (scale t.value k ≠ t.value) }

/-- Reassemble the output text: copy the text between token spans and insert
each token's replacement text (section 6, output reassembly "must simply
respect original span order"). -/
def reassembleAux (cs : List Char) : Nat → List RenderedQuantity → List Char
  | pos, [] => cs.drop pos
  | pos, r :: rest =>
    (cs.drop pos).take (r.start - pos) ++ r.text ++
      reassembleAux cs (r.start + r.len) rest

/-- Modelled from the spec: one pipeline pass over one text block
(sections 2 and 6): scan, scale and render each token, and reassemble the
annotated text. -/
def runPipeline (cfg : EngineConfig) (regs : List MarkerRegion) (k : ℚ)
    (cs : List Char) : List Char × List RenderedQuantity :=
  let rs := (scan cfg regs cs).map (renderToken cfg k)
  (reassembleAux cs 0 rs, rs)

/-- A rational whose fractional part is a multiple of 1/16. -/
def onSixteenthGrid (q : ℚ) : Prop := ∃ j : ℤ, q * 16 = (j : ℚ)

/-- Displayed value of the renderer's structured output: whole part plus the
rounded remainder in sixteenths. -/
def partsValue (q : ℚ) : ℚ :=
  ((renderParts q).1 : ℚ) + ((renderParts q).2 : ℚ) / 16

/-- A list that starts with no digit (or is empty). -/
def noDigitHead (cs : List Char) : Prop :=
  ∀ c rest, cs = c :: rest → c.isDigit = false

/-- `l` occurs as one contiguous, unmodified run inside `m`. -/
def ContiguousIn (l m : List Char) : Prop := ∃ u v, m = u ++ l ++ v

/-- The slice of `cs` between offsets `a` (inclusive) and `b` (exclusive). -/
def sliceOf (cs : List Char) (a b : Nat) : List Char :=
  (cs.drop a).take (b - a)

end RecipeView

namespace Plugin

/-- Translated from `src/main.ts` (interface `RecipeViewPluginSettings`). -/
structure RecipeViewPluginSettings where
  sideColumnRegex : String
  treatH1AsFilename : Bool
  renderUnicodeFractions : Bool
  singleColumnMaxWidth : Nat
  showBulletsTwoColumn : Bool
deriving DecidableEq

/-- Translated from `src/main.ts` (`DEFAULT_SETTINGS`). -/
def DEFAULT_SETTINGS : RecipeViewPluginSettings :=
  { sideColumnRegex := "Ingredients|Nutrition"
    treatH1AsFilename := false
    renderUnicodeFractions := true
    singleColumnMaxWidth := 600
    showBulletsTwoColumn := false }

/-- Data returned by `loadData()` in `src/main.ts`: a persisted object in
which each settings field may be absent, or no persisted object at all
(`loadData()` resolving to null); an absent field is one the persisted
object does not carry as an own property. -/
structure PersistedData where
  sideColumnRegex : Option String
  treatH1AsFilename : Option Bool
  renderUnicodeFractions : Option Bool
  singleColumnMaxWidth : Option Nat
  showBulletsTwoColumn : Option Bool
deriving DecidableEq

/-- Translated from `src/main.ts` (`loadSettings`):
`Object.assign({}, DEFAULT_SETTINGS, await this.loadData())` — every field
present in the persisted data overwrites the default, every absent field is
left at its default, and a null `loadData()` result leaves all defaults. -/
def loadSettings (d : Option PersistedData) : RecipeViewPluginSettings :=
  match d with
  | none => DEFAULT_SETTINGS
  | some p =>
    { sideColumnRegex := p.sideColumnRegex.getD DEFAULT_SETTINGS.sideColumnRegex
      treatH1AsFilename := p.treatH1AsFilename.getD DEFAULT_SETTINGS.treatH1AsFilename
      renderUnicodeFractions := p.renderUnicodeFractions.getD DEFAULT_SETTINGS.renderUnicodeFractions
      singleColumnMaxWidth := p.singleColumnMaxWidth.getD DEFAULT_SETTINGS.singleColumnMaxWidth
      showBulletsTwoColumn := p.showBulletsTwoColumn.getD DEFAULT_SETTINGS.showBulletsTwoColumn }

/-- Modelled from the spec: the recipe view type constant exported by
`recipe-view.ts`, a source file that is not available; all that the plugin
wiring relies on is that it is a view type distinct from `"markdown"`. -/
def VIEW_TYPE_RECIPE : String := "recipe-view"

/-- Translated from `src/main.ts` (`toggleView`): reads the most recent
leaf's view state type (`none` models a missing leaf, whose optional
chaining yields undefined); returns the boolean result together with the
view type written back by `setRecipeView`/`setMarkdownView` when one is
issued (`none` when `checking` is set or no branch matches). -/
def toggleView (checking : Bool) (leafType : Option String) :
    Bool × Option String :=
  if leafType = some "markdown" then
    (true, if checking then none else some VIEW_TYPE_RECIPE)
  else if leafType = some VIEW_TYPE_RECIPE then
    (true, if checking then none else some "markdown")
  else (false, none)

end Plugin

namespace RecipeView

/-! ### Digit printer lemmas -/

theorem digitChar_isDigit {d : Nat} (h : d < 10) :
    (digitChar d).isDigit = true := by
  interval_cases d <;> decide

theorem digitVal_digitChar {d : Nat} (h : d < 10) :
    digitVal (digitChar d) = d := by
  interval_cases d <;> decide

theorem natCharsAux_congr :
    ∀ n f g, n < f → n < g → natCharsAux f n = natCharsAux g n := by
  intro n
  induction n using Nat.strong_induction_on with
  | _ n ih =>
    intro f g hf hg
    match f, g with
    | f + 1, g + 1 =>
      by_cases h : n < 10
      · simp [natCharsAux, h]
      · have hd : n / 10 < n := Nat.div_lt_self (by omega) (by omega)
        simp only [natCharsAux, if_neg h]
        rw [ih (n / 10) hd f g (by omega) (by omega)]

theorem natChars_of_lt {n : Nat} (h : n < 10) : natChars n = [digitChar n] := by
  simp [natChars, natCharsAux, h]

theorem natCharsAux_succ (f n : Nat) :
    natCharsAux (f + 1) n =
      if n < 10 then [digitChar n]
      else natCharsAux f (n / 10) ++ [digitChar (n % 10)] := rfl

theorem natChars_of_ge {n : Nat} (h : 10 ≤ n) :
    natChars n = natChars (n / 10) ++ [digitChar (n % 10)] := by
  have hd : n / 10 < n := Nat.div_lt_self (by omega) (by omega)
  rw [natChars, natCharsAux_succ, if_neg (by omega : ¬ n < 10),
    natCharsAux_congr (n / 10) n (n / 10 + 1) hd (by omega)]
  rfl

theorem natChars_ne_nil (n : Nat) : natChars n ≠ [] := by
  by_cases h : n < 10
  · simp [natChars_of_lt h]
  · rw [natChars_of_ge (by omega)]; simp

theorem natChars_length_pos (n : Nat) : 1 ≤ (natChars n).length := by
  have := natChars_ne_nil n
  cases h : natChars n with
  | nil => exact absurd h this
  | cons c cs => simp

theorem natChars_all_digits :
    ∀ n, ∀ c ∈ natChars n, c.isDigit = true := by
  intro n
  induction n using Nat.strong_induction_on with
  | _ n ih =>
    intro c hc
    by_cases h : n < 10
    · rw [natChars_of_lt h] at hc
      simp at hc
      exact hc ▸ digitChar_isDigit h
    · rw [natChars_of_ge (by omega)] at hc
      rcases List.mem_append.mp hc with h1 | h2
      · exact ih (n / 10) (Nat.div_lt_self (by omega) (by omega)) c h1
      · simp at h2
        exact h2 ▸ digitChar_isDigit (Nat.mod_lt n (by omega))

theorem digitsToNat_append_singleton (ds : List Char) (c : Char) :
    digitsToNat (ds ++ [c]) = 10 * digitsToNat ds + digitVal c := by
  simp [digitsToNat, List.foldl_append]

theorem digitsToNat_natChars : ∀ n, digitsToNat (natChars n) = n := by
  intro n
  induction n using Nat.strong_induction_on with
  | _ n ih =>
    by_cases h : n < 10
    · rw [natChars_of_lt h]
      simp [digitsToNat, digitVal_digitChar h]
    · rw [natChars_of_ge (by omega), digitsToNat_append_singleton,
        ih (n / 10) (Nat.div_lt_self (by omega) (by omega)),
        digitVal_digitChar (Nat.mod_lt n (by omega))]
      omega

/-! ### takeWhile / dropWhile over an all-satisfying prefix -/

theorem takeWhile_append_all {p : Char → Bool} :
    ∀ {l r : List Char}, (∀ c ∈ l, p c = true) →
      (l ++ r).takeWhile p = l ++ r.takeWhile p := by
  intro l
  induction l with
  | nil => intro r _; simp
  | cons c cs ih =>
    intro r h
    have hc : p c = true := h c (by simp)
    simp only [List.cons_append, List.takeWhile_cons_of_pos hc, List.cons.injEq,
      true_and]
    exact ih (fun d hd => h d (by simp [hd]))

theorem dropWhile_append_all {p : Char → Bool} :
    ∀ {l r : List Char}, (∀ c ∈ l, p c = true) →
      (l ++ r).dropWhile p = r.dropWhile p := by
  intro l
  induction l with
  | nil => intro r _; simp
  | cons c cs ih =>
    intro r h
    have hc : p c = true := h c (by simp)
    simp only [List.cons_append, List.dropWhile_cons_of_pos hc]
    exact ih (fun d hd => h d (by simp [hd]))

theorem splitDigits_natChars_append {n : Nat} {rest : List Char}
    (h : noDigitHead rest) :
    splitDigits (natChars n ++ rest) = (natChars n, rest) := by
  have hall := natChars_all_digits n
  unfold splitDigits
  rw [takeWhile_append_all hall, dropWhile_append_all hall]
  cases rest with
  | nil => simp
  | cons c cs =>
    have hc := h c cs rfl
    have hneg : ¬ (Char.isDigit c = true) := by simp [hc]
    simp [List.takeWhile_cons_of_neg hneg, List.dropWhile_cons_of_neg hneg]

theorem splitDigits_natChars (n : Nat) :
    splitDigits (natChars n) = (natChars n, []) := by
  have := @splitDigits_natChars_append n []
    (by intro c rest h; cases h)
  simpa using this

/-! ### Glyph table lemmas -/

theorem glyphValueIn_of_not_mem :
    ∀ (tab : List (Char × ℚ)) (c : Char),
      (∀ p ∈ tab, p.1 ≠ c) → glyphValueIn tab c = none := by
  intro tab
  induction tab with
  | nil => intro c _; rfl
  | cons p rest ih =>
    intro c hall
    obtain ⟨g, v⟩ := p
    have hg : g ≠ c := hall (g, v) (by simp)
    simp only [glyphValueIn, if_neg hg]
    exact ih c (fun p hp => hall p (by simp [hp]))

theorem glyphValue?_of_digit {c : Char} (h : c.isDigit = true) :
    glyphValue? c = none := by
  refine glyphValueIn_of_not_mem glyphTable c ?_
  intro p hp hc
  have hnd : p.1.isDigit = false := by
    revert hp
    have : ∀ p ∈ glyphTable, p.1.isDigit = false := by decide
    exact this p
  rw [hc] at hnd
  rw [h] at hnd
  cases hnd

theorem glyphForIn_mem :
    ∀ (tab : List (Char × ℚ)) (q : ℚ) (g : Char),
      glyphForIn tab q = some g → (g, q) ∈ tab := by
  intro tab
  induction tab with
  | nil => intro q g h; cases h
  | cons p rest ih =>
    intro q g h
    obtain ⟨gc, v⟩ := p
    simp only [glyphForIn] at h
    by_cases hv : v = q
    · rw [if_pos hv] at h
      cases h
      simp [hv]
    · rw [if_neg hv] at h
      simp [ih q g h]

theorem glyphFor_props {q : ℚ} {g : Char} (h : glyphFor q = some g) :
    glyphValue? g = some q ∧ g.isDigit = false ∧ g ≠ ' ' ∧ g ≠ '.' ∧
      g ≠ '/' ∧ g ≠ '-' := by
  have hmem : (g, q) ∈ glyphTable := glyphForIn_mem glyphTable q g h
  fin_cases hmem <;>
    exact ⟨rfl, by decide, by decide, by decide, by decide, by decide⟩

theorem glyphValueIn_nonneg :
    ∀ (tab : List (Char × ℚ)), (∀ p ∈ tab, 0 ≤ p.2) →
      ∀ c q, glyphValueIn tab c = some q → 0 ≤ q := by
  intro tab
  induction tab with
  | nil => intro _ c q h; cases h
  | cons p rest ih =>
    intro hall c q h
    obtain ⟨g, v⟩ := p
    simp only [glyphValueIn] at h
    by_cases hg : g = c
    · rw [if_pos hg] at h
      cases h
      exact hall (g, q) (by simp)
    · rw [if_neg hg] at h
      exact ih (fun p hp => hall p (by simp [hp])) c q h

theorem glyphValue?_nonneg {c : Char} {q : ℚ} (h : glyphValue? c = some q) :
    0 ≤ q :=
  glyphValueIn_nonneg glyphTable (by norm_num [glyphTable]) c q h

/-! ### bestMatch fold lemmas -/

theorem matchFmt_nonneg {f : FormatKind} {cs : List Char} {n : Nat} {v : ℚ}
    (h : matchFmt f cs = some (n, v)) : 0 ≤ v := by
  have fracPart_nonneg : ∀ ds m w, matchFracPart ds = some (m, w) → 0 ≤ w := by
    intro ds m w hw
    simp only [matchFracPart] at hw
    split at hw
    · cases hw
    · split at hw
      · split at hw
        · split at hw
          · cases hw
          · simp only [Option.some.injEq, Prod.mk.injEq] at hw
            rw [← hw.2]
            positivity
        · cases hw
      · cases hw
  have glyph_nonneg : ∀ ds m w, matchGlyph ds = some (m, w) → 0 ≤ w := by
    intro ds m w hw
    simp only [matchGlyph] at hw
    split at hw
    · cases hw
    · simp only [Option.map_eq_some'] at hw
      obtain ⟨q, hq, hqw⟩ := hw
      cases hqw
      exact glyphValue?_nonneg hq
  cases f <;> simp only [matchFmt] at h
  case integer =>
    simp only [matchInteger] at h
    split at h
    · cases h
    · simp only [Option.some.injEq, Prod.mk.injEq] at h
      rw [← h.2]
      positivity
  case decimal =>
    simp only [matchDecimal] at h
    split at h
    · cases h
    · split at h
      · split at h
        · split at h
          · cases h
          · simp only [Option.some.injEq, Prod.mk.injEq] at h
            rw [← h.2]
            positivity
        · cases h
      · cases h
  case textFraction => exact fracPart_nonneg cs n v h
  case unicodeFraction => exact glyph_nonneg cs n v h
  case mixedTextNumber =>
    simp only [matchMixedText] at h
    split at h
    · cases h
    · split at h
      · split at h
        · simp only [Option.map_eq_some'] at h
          obtain ⟨⟨m, w⟩, hw, he⟩ := h
          cases he
          have := fracPart_nonneg _ _ _ hw
          positivity
        · cases h
      · cases h
  case mixedUnicodeNumber =>
    simp only [matchMixedUnicode] at h
    split at h
    · cases h
    · split at h
      · split at h
        · simp only [Option.map_eq_some'] at h
          obtain ⟨⟨m, w⟩, hw, he⟩ := h
          cases he
          have := glyph_nonneg _ _ _ hw
          positivity
        · simp only [Option.map_eq_some'] at h
          obtain ⟨⟨m, w⟩, hw, he⟩ := h
          cases he
          have := glyph_nonneg _ _ _ hw
          positivity
      · cases h
  case dashSeparatedMixed =>
    simp only [matchDashMixed] at h
    split at h
    · cases h
    · split at h
      · split at h
        · split at h
          next p hp =>
            obtain ⟨m, w⟩ := p
            simp only [Option.some.injEq, Prod.mk.injEq] at h
            have := fracPart_nonneg _ _ _ hp
            rw [← h.2]
            positivity
          next hp =>
            simp only [Option.map_eq_some'] at h
            obtain ⟨⟨m, w⟩, hw, he⟩ := h
            cases he
            have := glyph_nonneg _ _ _ hw
            positivity
        · cases h
      · cases h

theorem foldl_pickLonger_sound (cs : List Char) :
    ∀ (l : List FormatKind) (acc : Option (FormatKind × Nat × ℚ)),
      (∀ f n v, acc = some (f, n, v) → matchFmt f cs = some (n, v)) →
      ∀ f n v, l.foldl (fun a g => pickLonger a g cs) acc = some (f, n, v) →
        matchFmt f cs = some (n, v) := by
  intro l
  induction l with
  | nil =>
    intro acc hacc f n v h
    exact hacc f n v h
  | cons g rest ih =>
    intro acc hacc f n v h
    refine ih (pickLonger acc g cs) ?_ f n v h
    intro f' n' v' hp
    simp only [pickLonger] at hp
    cases hg : matchFmt g cs with
    | none =>
      rw [hg] at hp
      exact hacc _ _ _ hp
    | some p =>
      obtain ⟨m, w⟩ := p
      rw [hg] at hp
      cases hacc' : acc with
      | none =>
        rw [hacc'] at hp
        simp only [Option.some.injEq, Prod.mk.injEq] at hp
        obtain ⟨h1, h2, h3⟩ := hp
        rw [← h1, ← h2, ← h3]
        exact hg
      | some p0 =>
        obtain ⟨g0, m0, w0⟩ := p0
        rw [hacc'] at hp
        simp only [] at hp
        by_cases hlt : m0 < m
        · rw [if_pos hlt] at hp
          simp only [Option.some.injEq, Prod.mk.injEq] at hp
          obtain ⟨h1, h2, h3⟩ := hp
          rw [← h1, ← h2, ← h3]
          exact hg
        · rw [if_neg hlt] at hp
          exact hacc _ _ _ (hacc'.trans hp)

theorem foldl_pickLonger_mono (cs : List Char) :
    ∀ (l : List FormatKind) (acc : Option (FormatKind × Nat × ℚ)) (f : FormatKind)
      (n : Nat) (v : ℚ), acc = some (f, n, v) →
      ∃ f' n' v', l.foldl (fun a g => pickLonger a g cs) acc = some (f', n', v') ∧
        n ≤ n' := by
  intro l
  induction l with
  | nil =>
    intro acc f n v h
    exact ⟨f, n, v, h, le_refl n⟩
  | cons g rest ih =>
    intro acc f n v h
    cases hg : matchFmt g cs with
    | none =>
      have hstep : pickLonger acc g cs = some (f, n, v) := by
        simp only [pickLonger, hg]
        exact h
      exact ih _ f n v hstep
    | some p =>
      obtain ⟨m, w⟩ := p
      by_cases hlt : n < m
      · have hstep : pickLonger acc g cs = some (g, m, w) := by
          simp only [pickLonger, hg, h, if_pos hlt]
        obtain ⟨f', n', v', hf, hle⟩ := ih _ g m w hstep
        exact ⟨f', n', v', hf, by omega⟩
      · have hstep : pickLonger acc g cs = some (f, n, v) := by
          simp only [pickLonger, hg, h, if_neg hlt]
        exact ih _ f n v hstep

theorem foldl_pickLonger_max (cs : List Char) :
    ∀ (l : List FormatKind) (acc : Option (FormatKind × Nat × ℚ))
      (g : FormatKind) (m : Nat) (w : ℚ), g ∈ l → matchFmt g cs = some (m, w) →
      ∃ f' n' v', l.foldl (fun a g => pickLonger a g cs) acc = some (f', n', v') ∧
        m ≤ n' := by
  intro l
  induction l with
  | nil =>
    intro acc g m w hmem
    cases hmem
  | cons g0 rest ih =>
    intro acc g m w hmem hg
    rcases List.mem_cons.mp hmem with heq | hmem'
    · subst heq
      have hstep : ∃ f1 n1 v1, pickLonger acc g cs = some (f1, n1, v1) ∧ m ≤ n1 := by
        simp only [pickLonger, hg]
        cases acc with
        | none => exact ⟨g, m, w, rfl, le_refl m⟩
        | some p0 =>
          obtain ⟨g0', m0, w0⟩ := p0
          simp only []
          by_cases hlt : m0 < m
          · rw [if_pos hlt]
            exact ⟨g, m, w, rfl, le_refl m⟩
          · rw [if_neg hlt]
            exact ⟨g0', m0, w0, rfl, by omega⟩
      obtain ⟨f1, n1, v1, hstep, hle⟩ := hstep
      obtain ⟨f', n', v', hf, hle'⟩ := foldl_pickLonger_mono cs rest _ f1 n1 v1 hstep
      exact ⟨f', n', v', hf, by omega⟩
    · exact ih _ g m w hmem' hg

theorem mem_formats (f : FormatKind) : f ∈ formats := by
  cases f <;> simp [formats]

theorem bestMatch_sound {cs : List Char} {f : FormatKind} {n : Nat} {v : ℚ}
    (h : bestMatch cs = some (f, n, v)) : matchFmt f cs = some (n, v) := by
  refine foldl_pickLonger_sound cs formats none ?_ f n v h
  intro f' n' v' h'
  cases h'

theorem bestMatch_max {cs : List Char} {f : FormatKind} {n : Nat} {v : ℚ}
    {g : FormatKind} {m : Nat} {w : ℚ} (h : bestMatch cs = some (f, n, v))
    (hg : matchFmt g cs = some (m, w)) : m ≤ n := by
  obtain ⟨f', n', v', hf, hle⟩ :=
    foldl_pickLonger_max cs formats none g m w (mem_formats g) hg
  rw [bestMatch] at h
  rw [h] at hf
  simp only [Option.some.injEq, Prod.mk.injEq] at hf
  omega

theorem bestMatch_nonneg {cs : List Char} {f : FormatKind} {n : Nat} {v : ℚ}
    (h : bestMatch cs = some (f, n, v)) : 0 ≤ v :=
  matchFmt_nonneg (bestMatch_sound h)

/-! ### Matcher evaluation on the renderer's output shapes -/

theorem natChars_cons (n : Nat) :
    ∃ a as, natChars n = a :: as ∧ a.isDigit = true := by
  cases hA : natChars n with
  | nil => exact absurd hA (natChars_ne_nil n)
  | cons a as =>
    exact ⟨a, as, rfl, natChars_all_digits n a (by rw [hA]; simp)⟩

theorem bestMatch_natChars (n : Nat) :
    bestMatch (natChars n) =
      some (.integer, (natChars n).length, (n : ℚ)) := by
  obtain ⟨a, as, hA, ha⟩ := natChars_cons n
  have hsplit : splitDigits (a :: as) = (a :: as, []) := by
    rw [← hA]; exact splitDigits_natChars n
  have hglyph : glyphValue? a = none := glyphValue?_of_digit ha
  have hval : (digitsToNat (a :: as) : ℚ) = (n : ℚ) := by
    rw [← hA, digitsToNat_natChars]
  rw [hA]
  simp only [bestMatch, formats, List.foldl_cons, List.foldl_nil, pickLonger,
    matchFmt, matchInteger, matchDecimal, matchFracPart, matchGlyph,
    matchMixedText, matchMixedUnicode, matchDashMixed, hsplit, hglyph,
    Option.map_none', Option.map_some', hval, List.cons_ne_nil, ite_false,
    if_false, if_neg, not_false_eq_true]

theorem bestMatch_glyphOnly {g : Char} {q : ℚ} (hg : glyphValue? g = some q)
    (hnd : g.isDigit = false) :
    bestMatch [g] = some (.unicodeFraction, 1, q) := by
  have hneg : ¬ (Char.isDigit g = true) := by simp [hnd]
  have hsplit : splitDigits [g] = ([], [g]) := by
    simp [splitDigits, List.takeWhile_cons_of_neg hneg,
      List.dropWhile_cons_of_neg hneg]
  simp only [bestMatch, formats, List.foldl_cons, List.foldl_nil, pickLonger,
    matchFmt, matchInteger, matchDecimal, matchFracPart, matchGlyph,
    matchMixedText, matchMixedUnicode, matchDashMixed, hsplit, hg,
    Option.map_none', Option.map_some', ite_true, if_true]

theorem noDigitHead_slash {t : List Char} : noDigitHead ('/' :: t) := by
  intro c rest h
  injection h with h1 h2
  rw [← h1]
  rfl

theorem matchFracPart_shape (x y : Nat) :
    matchFracPart (natChars x ++ '/' :: natChars y) =
      some ((natChars x).length + 1 + (natChars y).length,
        (x : ℚ) / (y : ℚ)) := by
  obtain ⟨a, as, hA, ha⟩ := natChars_cons x
  obtain ⟨b, bs, hB, hb⟩ := natChars_cons y
  have hsplit : splitDigits (natChars x ++ '/' :: natChars y) =
      (natChars x, '/' :: natChars y) :=
    splitDigits_natChars_append noDigitHead_slash
  have hsplitY : splitDigits (natChars y) = (natChars y, []) :=
    splitDigits_natChars y
  have hx : (digitsToNat (natChars x) : ℚ) = (x : ℚ) := by
    rw [digitsToNat_natChars]
  have hy : (digitsToNat (natChars y) : ℚ) = (y : ℚ) := by
    rw [digitsToNat_natChars]
  simp only [hA, hB] at hsplit hsplitY hx hy ⊢
  simp only [matchFracPart, hsplit, hsplitY, hx, hy, List.cons_ne_nil,
    ite_true, if_true, ite_false, if_false]

theorem bestMatch_fracShape (x y : Nat) :
    bestMatch (natChars x ++ '/' :: natChars y) =
      some (.textFraction, (natChars x).length + 1 + (natChars y).length,
        (x : ℚ) / (y : ℚ)) := by
  have hfrac := matchFracPart_shape x y
  obtain ⟨a, as, hA, ha⟩ := natChars_cons x
  obtain ⟨b, bs, hB, hb⟩ := natChars_cons y
  have hsplit : splitDigits (natChars x ++ '/' :: natChars y) =
      (natChars x, '/' :: natChars y) :=
    splitDigits_natChars_append noDigitHead_slash
  have hx : (digitsToNat (natChars x) : ℚ) = (x : ℚ) := by
    rw [digitsToNat_natChars]
  have hga : glyphValue? a = none := glyphValue?_of_digit ha
  have hgs : glyphValue? '/' = none := by decide
  simp only [hA, hB, List.cons_append] at hfrac hsplit hx ⊢
  simp only [bestMatch, formats, List.foldl_cons, List.foldl_nil, pickLonger,
    matchFmt, matchInteger, matchDecimal, matchGlyph, matchMixedText,
    matchMixedUnicode, matchDashMixed, hfrac, hsplit, hga, hgs,
    Option.map_none', Option.map_some', hx, List.cons_ne_nil, List.cons_append,
    ite_true, if_true, ite_false, if_false,
    show (('/' : Char) = '.') = False from by decide,
    show (('/' : Char) = ' ') = False from by decide,
    show (('/' : Char) = '-') = False from by decide]
  rw [if_neg (by simp only [List.length_cons]; omega)]

theorem bestMatch_mixedGlyph (n : Nat) {g : Char} {q : ℚ}
    (hg : glyphValue? g = some q) (hnd : g.isDigit = false)
    (hsp : g ≠ ' ') (hdot : g ≠ '.') (hslash : g ≠ '/') (hdash : g ≠ '-') :
    bestMatch (natChars n ++ [g]) =
      some (.mixedUnicodeNumber, (natChars n).length + 1, (n : ℚ) + q) := by
  obtain ⟨a, as, hA, ha⟩ := natChars_cons n
  have hsplit : splitDigits (natChars n ++ [g]) = (natChars n, [g]) := by
    refine splitDigits_natChars_append ?_
    intro c rest h
    injection h with h1 h2
    rw [← h1]
    exact hnd
  have hx : (digitsToNat (natChars n) : ℚ) = (n : ℚ) := by
    rw [digitsToNat_natChars]
  have hga : glyphValue? a = none := glyphValue?_of_digit ha
  simp only [hA, List.cons_append] at hsplit hx ⊢
  simp only [bestMatch, formats, List.foldl_cons, List.foldl_nil, pickLonger,
    matchFmt, matchInteger, matchDecimal, matchFracPart, matchGlyph,
    matchMixedText, matchMixedUnicode, matchDashMixed, hsplit, hga, hg, hx,
    Option.map_none', Option.map_some', List.cons_ne_nil, ite_true, if_true,
    ite_false, if_false, eq_false hsp, eq_false hdot, eq_false hslash,
    eq_false hdash]
  rw [if_neg (by omega)]

theorem bestMatch_mixedFrac (n x y : Nat) :
    bestMatch (natChars n ++ ' ' :: (natChars x ++ '/' :: natChars y)) =
      some (.mixedTextNumber,
        (natChars n).length + 1 +
          ((natChars x).length + 1 + (natChars y).length),
        (n : ℚ) + (x : ℚ) / (y : ℚ)) := by
  have hfrac := matchFracPart_shape x y
  obtain ⟨a, as, hA, ha⟩ := natChars_cons n
  obtain ⟨b, bs, hB, hb⟩ := natChars_cons x
  have hsplit : splitDigits
      (natChars n ++ ' ' :: (natChars x ++ '/' :: natChars y)) =
      (natChars n, ' ' :: (natChars x ++ '/' :: natChars y)) := by
    refine splitDigits_natChars_append ?_
    intro c rest h
    injection h with h1 h2
    rw [← h1]
    rfl
  have hx : (digitsToNat (natChars n) : ℚ) = (n : ℚ) := by
    rw [digitsToNat_natChars]
  have hga : glyphValue? a = none := glyphValue?_of_digit ha
  have hgb : glyphValue? b = none := glyphValue?_of_digit hb
  simp only [hA, hB, List.cons_append] at hfrac hsplit hx ⊢
  simp only [bestMatch, formats, List.foldl_cons, List.foldl_nil, pickLonger,
    matchFmt, matchInteger, matchDecimal, matchGlyph,
    matchMixedText, matchMixedUnicode, matchDashMixed, hfrac, hsplit, hga,
    hgb, hx, Option.map_none', Option.map_some', List.cons_ne_nil, ite_true,
    if_true, ite_false, if_false,
    show ((' ' : Char) = '.') = False from by decide,
    show ((' ' : Char) = '/') = False from by decide,
    show ((' ' : Char) = '-') = False from by decide]
  simp only [matchFracPart, hsplit, List.cons_ne_nil, ite_false, if_false,
    show ((' ' : Char) = '/') = False from by decide]
  rw [if_neg (by simp only [List.length_cons]; omega)]

/-! ### Renderer lemmas -/

theorem roundSixteenths_window (r : ℚ) :
    ((roundSixteenths r : ℚ)) ≤ 16 * r + 1/2 ∧
      16 * r + 1/2 < (roundSixteenths r : ℚ) + 1 :=
  ⟨Int.floor_le _, Int.lt_floor_add_one _⟩

theorem roundSixteenths_bounds {r : ℚ} (h0 : 0 ≤ r) (h1 : r < 1) :
    0 ≤ roundSixteenths r ∧ roundSixteenths r ≤ 16 := by
  rw [roundSixteenths]
  constructor
  · refine Int.floor_nonneg.mpr ?_
    linarith
  · have hle : 16 * r + 1/2 ≤ (33 : ℚ)/2 := by linarith
    have := Int.floor_le_floor hle
    have h33 : ⌊(33 : ℚ)/2⌋ = 16 := by norm_num
    omega

theorem renderParts_eq (q : ℚ) :
    renderParts q =
      (if roundSixteenths (q - (⌊q⌋ : ℚ)) = 16 then ((⌊q⌋ : ℤ) + 1, 0)
       else (⌊q⌋, (roundSixteenths (q - (⌊q⌋ : ℚ))).toNat)) := rfl

theorem fract_bounds (q : ℚ) :
    (0 : ℚ) ≤ q - (⌊q⌋ : ℚ) ∧ q - (⌊q⌋ : ℚ) < 1 := by
  constructor
  · have := Int.floor_le q
    linarith
  · have := Int.lt_floor_add_one q
    linarith

theorem renderParts_m_lt (q : ℚ) : (renderParts q).2 < 16 := by
  obtain ⟨h0, h1⟩ := fract_bounds q
  obtain ⟨hl, hu⟩ := roundSixteenths_bounds h0 h1
  rw [renderParts_eq]
  by_cases h : roundSixteenths (q - (⌊q⌋ : ℚ)) = 16
  · rw [if_pos h]
    norm_num
  · rw [if_neg h]
    simp only []
    omega

theorem renderParts_w_nonneg {q : ℚ} (hq : 0 ≤ q) : 0 ≤ (renderParts q).1 := by
  have hw : 0 ≤ ⌊q⌋ := Int.floor_nonneg.mpr hq
  rw [renderParts_eq]
  by_cases h : roundSixteenths (q - (⌊q⌋ : ℚ)) = 16
  · simp only [if_pos h]
    omega
  · simp only [if_neg h]
    exact hw

theorem partsValue_eq (q : ℚ) :
    partsValue q = ((renderParts q).1 : ℚ) + ((renderParts q).2 : ℚ) / 16 :=
  rfl

theorem renderParts_of_den_one {q : ℚ} (h : q.den = 1) :
    renderParts q = (q.num, 0) := by
  have hq : ((q.num : ℚ)) = q := by
    have := Rat.num_div_den q
    rw [h] at this
    simpa using this
  have hfl : ⌊q⌋ = q.num := by
    conv_lhs => rw [← hq]
    exact Int.floor_intCast q.num
  have hr : q - (⌊q⌋ : ℚ) = 0 := by
    rw [hfl, hq]
    ring
  have ht : roundSixteenths (q - (⌊q⌋ : ℚ)) = 0 := by
    rw [hr, roundSixteenths]
    norm_num
  rw [renderParts_eq, ht, if_neg (by norm_num), hfl]
  rfl

theorem roundSixteenths_int_add_half (j : ℤ) :
    roundSixteenths ((j : ℚ) / 16) = j := by
  rw [roundSixteenths]
  have h : (16 : ℚ) * ((j : ℚ) / 16) + 1/2 = (j : ℚ) + 1/2 := by ring
  rw [h, Int.floor_int_add]
  norm_num

/-- A value that is a whole plus a sixteenth remainder below 1 splits back
into exactly those parts. -/
theorem renderParts_whole_add_sixteenth (w : ℤ) (m : Nat) (hm : m < 16) :
    renderParts ((w : ℚ) + (m : ℚ) / 16) = (w, m) := by
  have hm0 : (0 : ℚ) ≤ (m : ℚ) / 16 := by positivity
  have hm1 : (m : ℚ) / 16 < 1 := by
    rw [div_lt_one (by norm_num)]
    exact_mod_cast hm
  have hfl : ⌊(w : ℚ) + (m : ℚ) / 16⌋ = w := by
    rw [Int.floor_int_add]
    have : ⌊(m : ℚ) / 16⌋ = 0 := by
      rw [Int.floor_eq_zero_iff]
      constructor
      · exact hm0
      · simpa using hm1
    omega
  have hr : (w : ℚ) + (m : ℚ) / 16 - (⌊(w : ℚ) + (m : ℚ) / 16⌋ : ℚ) =
      ((m : ℤ) : ℚ) / 16 := by
    rw [hfl]
    push_cast
    ring
  have ht : roundSixteenths
      ((w : ℚ) + (m : ℚ) / 16 - (⌊(w : ℚ) + (m : ℚ) / 16⌋ : ℚ)) = (m : ℤ) := by
    rw [hr, roundSixteenths_int_add_half]
  rw [renderParts_eq, ht, if_neg (by omega), hfl]
  simp

theorem partsValue_of_grid {q : ℚ} (hg : onSixteenthGrid q) :
    partsValue q = q := by
  obtain ⟨j, hj⟩ := hg
  obtain ⟨h0, h1⟩ := fract_bounds q
  have hj16 : (q - (⌊q⌋ : ℚ)) * 16 = ((j - 16 * ⌊q⌋ : ℤ) : ℚ) := by
    push_cast
    linarith [hj]
  set jr : ℤ := j - 16 * ⌊q⌋ with hjr
  have hr : q - (⌊q⌋ : ℚ) = (jr : ℚ) / 16 := by
    rw [eq_div_iff (by norm_num : (16 : ℚ) ≠ 0)]
    exact hj16
  have hjr_bounds : 0 ≤ jr ∧ jr < 16 := by
    constructor
    · by_contra hneg
      push_neg at hneg
      have h2 : jr ≤ -1 := by omega
      have h3 : ((jr : ℚ)) ≤ -1 := by exact_mod_cast h2
      rw [hr] at h0
      nlinarith
    · by_contra hge
      push_neg at hge
      have h3 : (16 : ℚ) ≤ (jr : ℚ) := by exact_mod_cast hge
      rw [hr] at h1
      nlinarith
  have ht : roundSixteenths (q - (⌊q⌋ : ℚ)) = jr := by
    rw [hr, roundSixteenths_int_add_half]
  rw [partsValue_eq, renderParts_eq, ht, if_neg (by omega)]
  have hcast : ((jr.toNat : ℚ)) = (jr : ℚ) := by
    exact_mod_cast Int.toNat_of_nonneg hjr_bounds.1
  simp only []
  rw [hcast]
  linarith [hr]

theorem partsValue_grid {q : ℚ} :
    onSixteenthGrid (partsValue q) := by
  refine ⟨16 * (renderParts q).1 + (renderParts q).2, ?_⟩
  rw [partsValue_eq]
  push_cast
  ring

theorem partsValue_nonneg {q : ℚ} (hq : 0 ≤ q) : 0 ≤ partsValue q := by
  rw [partsValue_eq]
  have hw : 0 ≤ (renderParts q).1 := renderParts_w_nonneg hq
  have : (0 : ℚ) ≤ ((renderParts q).1 : ℚ) := by exact_mod_cast hw
  positivity

theorem renderParts_partsValue (q : ℚ) :
    renderParts (partsValue q) = renderParts q := by
  have hm : (renderParts q).2 < 16 := renderParts_m_lt q
  have := renderParts_whole_add_sixteenth (renderParts q).1 (renderParts q).2 hm
  rw [partsValue_eq]
  rw [this]

/-! ### Round-trip: parsing the renderer's output -/

theorem parse_renderValue (uni : Bool) {q : ℚ} (hq : 0 ≤ q) :
    ∃ f, bestMatch (renderValue uni q) =
      some (f, (renderValue uni q).length, partsValue q) := by
  have hw0 : 0 ≤ (renderParts q).1 := renderParts_w_nonneg hq
  have hm16 : (renderParts q).2 < 16 := renderParts_m_lt q
  have hpv : partsValue q =
      ((renderParts q).1 : ℚ) + ((renderParts q).2 : ℚ) / 16 := partsValue_eq q
  cases hrp : renderParts q with
  | mk w m =>
    rw [hrp] at hw0 hm16 hpv
    simp only [] at hw0 hm16 hpv
    have hwcast : ((w.toNat : ℚ)) = (w : ℚ) := by
      exact_mod_cast Int.toNat_of_nonneg hw0
    by_cases hm : m = 0
    · subst hm
      have hout : renderValue uni q = natChars w.toNat := by
        rw [renderValue, hrp]
        simp
      rw [hout, hpv]
      refine ⟨.integer, ?_⟩
      rw [bestMatch_natChars w.toNat, hwcast]
      norm_num
    · cases hgl : (if uni then glyphFor ((m : ℚ) / 16) else none) with
      | some g =>
        have hgf : glyphFor ((m : ℚ) / 16) = some g := by
          cases uni with
          | false => exact absurd hgl (by simp)
          | true => simpa using hgl
        obtain ⟨hgval, hgd, hgsp, hgdot, hgsl, hgda⟩ := glyphFor_props hgf
        by_cases hw : w = 0
        · have hout : renderValue uni q = [g] := by
            rw [renderValue, hrp]
            simp only [if_neg hm, hgl, if_pos hw]
          rw [hout, hpv]
          refine ⟨.unicodeFraction, ?_⟩
          rw [bestMatch_glyphOnly hgval hgd, hw]
          norm_num
        · have hout : renderValue uni q = natChars w.toNat ++ [g] := by
            rw [renderValue, hrp]
            simp only [if_neg hm, hgl, if_neg hw]
          rw [hout, hpv]
          refine ⟨.mixedUnicodeNumber, ?_⟩
          rw [bestMatch_mixedGlyph w.toNat hgval hgd hgsp hgdot hgsl hgda,
            hwcast]
          simp [List.length_append]
      | none =>
        have hr_nonneg : (0 : ℚ) ≤ (m : ℚ) / 16 := by positivity
        have hnum : ((((m : ℚ) / 16).num.toNat : ℚ)) = (((m : ℚ) / 16).num : ℚ) := by
          exact_mod_cast Int.toNat_of_nonneg (Rat.num_nonneg.mpr hr_nonneg)
        have hfrac_val : ((((m : ℚ) / 16).num.toNat : ℚ)) /
            ((((m : ℚ) / 16).den : ℕ) : ℚ) = (m : ℚ) / 16 := by
          rw [hnum]
          exact_mod_cast Rat.num_div_den ((m : ℚ) / 16)
        have hfc : fracChars ((m : ℚ) / 16) =
            natChars ((m : ℚ) / 16).num.toNat ++
              '/' :: natChars ((m : ℚ) / 16).den := rfl
        by_cases hw : w = 0
        · have hout : renderValue uni q = fracChars ((m : ℚ) / 16) := by
            rw [renderValue, hrp]
            simp only [if_neg hm, hgl, if_pos hw]
          rw [hout, hpv]
          refine ⟨.textFraction, ?_⟩
          rw [hfc, bestMatch_fracShape, hfrac_val, hw]
          norm_num
          omega
        · have hout : renderValue uni q =
              natChars w.toNat ++ ' ' :: fracChars ((m : ℚ) / 16) := by
            rw [renderValue, hrp]
            simp only [if_neg hm, hgl, if_neg hw]
          rw [hout, hpv]
          refine ⟨.mixedTextNumber, ?_⟩
          rw [hfc, bestMatch_mixedFrac, hfrac_val, hwcast]
          simp [List.length_append]
          omega

/-! ### Scanner lemmas -/

theorem acceptCandidate_no_skip {cfg : EngineConfig} {regs : List MarkerRegion}
    {pos n : Nat} {tail : List Char}
    (h : acceptCandidate cfg regs pos n tail = true) :
    ∀ r ∈ regs, r.force = false → overlapsRegion r pos n = false := by
  intro r hr hforce
  rw [acceptCandidate] at h
  by_cases hany : regs.any (fun r => !r.force && overlapsRegion r pos n)
  · rw [if_pos hany] at h
    cases h
  · rw [List.any_eq_true] at hany
    push_neg at hany
    have := hany r hr
    rw [hforce] at this
    simp at this
    exact this

/-- The scanner's combined per-token invariant: every emitted token starts at
or after the scan position, has positive length, carries the longest-match
result of the grammar at its own position, and passed the acceptance rule. -/
theorem scanAux_inv (cfg : EngineConfig) (regs : List MarkerRegion) :
    ∀ (fuel : Nat) (cs : List Char) (pos : Nat), cs.length ≤ fuel →
      ∀ t ∈ scanAux cfg regs fuel cs pos,
        pos ≤ t.start ∧ 1 ≤ t.len ∧
        bestMatch (cs.drop (t.start - pos)) =
          some (t.formatKind, t.len, t.value) ∧
        acceptCandidate cfg regs t.start t.len
          ((cs.drop (t.start - pos)).drop t.len) = true := by
  intro fuel
  induction fuel with
  | zero =>
    intro cs pos hlen t ht
    rw [scanAux] at ht
    cases ht
  | succ fuel ih =>
    intro cs pos hlen t ht
    cases cs with
    | nil =>
      rw [scanAux] at ht
      cases ht
    | cons c rest =>
      rw [scanAux] at ht
      cases hbm : bestMatch (c :: rest) with
      | none =>
        rw [hbm] at ht
        simp only [] at ht
        have hrest : rest.length ≤ fuel := by
          simp only [List.length_cons] at hlen
          omega
        obtain ⟨h1, h2, h3, h4⟩ := ih rest (pos + 1) hrest t ht
        refine ⟨by omega, h2, ?_, ?_⟩
        · rw [show t.start - pos = (t.start - (pos + 1)) + 1 by omega,
            List.drop_succ_cons]
          exact h3
        · rw [show t.start - pos = (t.start - (pos + 1)) + 1 by omega,
            List.drop_succ_cons]
          exact h4
      | some p =>
        obtain ⟨f, n, v⟩ := p
        rw [hbm] at ht
        simp only [] at ht
        by_cases hacc : 1 ≤ n ∧
            acceptCandidate cfg regs pos n ((c :: rest).drop n) = true
        · rw [if_pos hacc] at ht
          rcases List.mem_cons.mp ht with heq | hmem
          · subst heq
            refine ⟨le_refl _, hacc.1, ?_, ?_⟩
            · simpa using hbm
            · simpa using hacc.2
          · have hlen' : ((c :: rest).drop n).length ≤ fuel := by
              simp only [List.length_drop, List.length_cons] at *
              omega
            obtain ⟨h1, h2, h3, h4⟩ := ih _ (pos + n) hlen' t hmem
            refine ⟨by omega, h2, ?_, ?_⟩
            · rw [show t.start - pos = n + (t.start - (pos + n)) by omega,
                ← List.drop_drop]
              exact h3
            · rw [show t.start - pos = n + (t.start - (pos + n)) by omega,
                ← List.drop_drop]
              exact h4
        · rw [if_neg hacc] at ht
          have hrest : rest.length ≤ fuel := by
            simp only [List.length_cons] at hlen
            omega
          obtain ⟨h1, h2, h3, h4⟩ := ih rest (pos + 1) hrest t ht
          refine ⟨by omega, h2, ?_, ?_⟩
          · rw [show t.start - pos = (t.start - (pos + 1)) + 1 by omega,
              List.drop_succ_cons]
            exact h3
          · rw [show t.start - pos = (t.start - (pos + 1)) + 1 by omega,
              List.drop_succ_cons]
            exact h4

theorem scan_inv (cfg : EngineConfig) (regs : List MarkerRegion)
    (cs : List Char) :
    ∀ t ∈ scan cfg regs cs,
      1 ≤ t.len ∧
      bestMatch (cs.drop t.start) = some (t.formatKind, t.len, t.value) ∧
      acceptCandidate cfg regs t.start t.len
        ((cs.drop t.start).drop t.len) = true := by
  intro t ht
  obtain ⟨h1, h2, h3, h4⟩ :=
    scanAux_inv cfg regs cs.length cs 0 (le_refl _) t ht
  rw [Nat.sub_zero] at h3 h4
  exact ⟨h2, h3, h4⟩

theorem scanAux_pairwise (cfg : EngineConfig) (regs : List MarkerRegion) :
    ∀ (fuel : Nat) (cs : List Char) (pos : Nat), cs.length ≤ fuel →
      List.Pairwise (fun a b => a.start + a.len ≤ b.start)
        (scanAux cfg regs fuel cs pos) := by
  intro fuel
  induction fuel with
  | zero =>
    intro cs pos hlen
    rw [scanAux]
    exact List.Pairwise.nil
  | succ fuel ih =>
    intro cs pos hlen
    cases cs with
    | nil =>
      rw [scanAux]
      exact List.Pairwise.nil
    | cons c rest =>
      rw [scanAux]
      cases hbm : bestMatch (c :: rest) with
      | none =>
        exact ih rest (pos + 1) (by simp only [List.length_cons] at hlen; omega)
      | some p =>
        obtain ⟨f, n, v⟩ := p
        simp only []
        by_cases hacc : 1 ≤ n ∧
            acceptCandidate cfg regs pos n ((c :: rest).drop n) = true
        · rw [if_pos hacc]
          have hlen' : ((c :: rest).drop n).length ≤ fuel := by
            simp only [List.length_drop, List.length_cons] at *
            omega
          refine List.Pairwise.cons ?_ (ih _ (pos + n) hlen')
          intro u hu
          obtain ⟨h1, _, _, _⟩ := scanAux_inv cfg regs fuel _ (pos + n) hlen' u hu
          simpa using by omega
        · rw [if_neg hacc]
          exact ih rest (pos + 1) (by simp only [List.length_cons] at hlen; omega)

theorem scan_pairwise (cfg : EngineConfig) (regs : List MarkerRegion)
    (cs : List Char) :
    List.Pairwise (fun a b => a.start + a.len ≤ b.start) (scan cfg regs cs) :=
  scanAux_pairwise cfg regs cs.length cs 0 (le_refl _)

/-! ### Reassembly frame lemmas -/

theorem contiguousIn_append_right {x z : List Char} (y : List Char)
    (h : ContiguousIn x z) : ContiguousIn x (y ++ z) := by
  obtain ⟨u, v, huv⟩ := h
  exact ⟨y ++ u, v, by rw [huv]; simp [List.append_assoc]⟩

theorem contiguousIn_append_left {x y : List Char} (z : List Char)
    (h : ContiguousIn x y) : ContiguousIn x (y ++ z) := by
  obtain ⟨u, v, huv⟩ := h
  exact ⟨u, v ++ z, by rw [huv]; simp [List.append_assoc]⟩

theorem contiguousIn_drop {cs : List Char} {pos a b : Nat} (h : pos ≤ a) :
    ContiguousIn (sliceOf cs a b) (cs.drop pos) := by
  refine ⟨(cs.drop pos).take (a - pos), (cs.drop a).drop (b - a), ?_⟩
  have hdd : (cs.drop pos).drop (a - pos) = cs.drop a := by
    rw [List.drop_drop]
    congr 1
    omega
  calc cs.drop pos
      = (cs.drop pos).take (a - pos) ++ (cs.drop pos).drop (a - pos) := by
        rw [List.take_append_drop]
    _ = (cs.drop pos).take (a - pos) ++
          ((cs.drop a).take (b - a) ++ (cs.drop a).drop (b - a)) := by
        rw [hdd, List.take_append_drop]
    _ = (cs.drop pos).take (a - pos) ++ sliceOf cs a b ++
          (cs.drop a).drop (b - a) := by
        rw [sliceOf, List.append_assoc]

theorem contiguousIn_take {cs : List Char} {pos a b s : Nat} (hpa : pos ≤ a)
    (hab : a ≤ b) (hbs : b ≤ s) :
    ContiguousIn (sliceOf cs a b) ((cs.drop pos).take (s - pos)) := by
  have hmid : ((cs.drop pos).take (s - pos)).drop (a - pos) =
      (cs.drop a).take (s - a) := by
    rw [List.drop_take, List.drop_drop]
    congr 1
    · omega
    · congr 1
      omega
  have hsplit2 : (cs.drop a).take (s - a) =
      sliceOf cs a b ++ ((cs.drop a).take (s - a)).drop (b - a) := by
    have : ((cs.drop a).take (s - a)).take (b - a) = sliceOf cs a b := by
      rw [List.take_take, sliceOf]
      congr 1
      omega
    calc (cs.drop a).take (s - a)
        = ((cs.drop a).take (s - a)).take (b - a) ++
            ((cs.drop a).take (s - a)).drop (b - a) := by
          rw [List.take_append_drop]
      _ = sliceOf cs a b ++ ((cs.drop a).take (s - a)).drop (b - a) := by
          rw [this]
  have key : (cs.drop pos).take (s - pos) =
      ((cs.drop pos).take (s - pos)).take (a - pos) ++ sliceOf cs a b ++
        ((cs.drop a).take (s - a)).drop (b - a) := by
    conv_lhs =>
      rw [← List.take_append_drop (a - pos) ((cs.drop pos).take (s - pos)),
        hmid, hsplit2]
    rw [List.append_assoc]
  exact ⟨((cs.drop pos).take (s - pos)).take (a - pos),
    ((cs.drop a).take (s - a)).drop (b - a), key⟩

theorem reassemble_frame (cs : List Char) (a b : Nat) (hab : a ≤ b) :
    ∀ (rs : List RenderedQuantity) (pos : Nat), pos ≤ a →
      (∀ r ∈ rs, r.start + r.len ≤ a ∨ b ≤ r.start) →
      ContiguousIn (sliceOf cs a b) (reassembleAux cs pos rs) := by
  intro rs
  induction rs with
  | nil =>
    intro pos hpos _
    rw [reassembleAux]
    exact contiguousIn_drop hpos
  | cons r rest ih =>
    intro pos hpos hdisj
    rw [reassembleAux]
    rcases hdisj r (by simp) with hbefore | hafter
    · have hrec := ih (r.start + r.len) hbefore
        (fun u hu => hdisj u (by simp [hu]))
      rw [List.append_assoc]
      exact contiguousIn_append_right _
        (contiguousIn_append_right _ hrec)
    · have hfirst : ContiguousIn (sliceOf cs a b)
          ((cs.drop pos).take (r.start - pos)) :=
        contiguousIn_take hpos hab hafter
      rw [List.append_assoc]
      exact contiguousIn_append_left _ hfirst

/-! ### Claim theorems -/

/-- Claim C1: for every token processed in one pipeline pass, the output boolean
`changed` is true if and only if the scaled rational value is numerically
unequal to the original rational value, compared as exact rationals; it is
never derived from comparing the original and rendered strings — witness the
instance where the token `1/8` scaled by `33/32` renders to the very same
text `1/8` (rounding coincidence) and is still flagged changed. -/
theorem C1_changed_flag :
    (∀ (cfg : EngineConfig) (k : ℚ) (t : QuantityToken),
      ((renderToken cfg k t).changed = true ↔ scale t.value k ≠ t.value)) ∧
    (renderToken
        { unitLexicon := [['c', 'u', 'p']], renderUnicodeFractions := false }
        (33/32)
        { start := 0, len := 3, rawText := ['1', '/', '8'], value := 1/8,
          formatKind := .textFraction, separatorStyle := none,
          unitText := none, overrideMode := .noOverride }).text =
      ['1', '/', '8'] ∧
    (renderToken
        { unitLexicon := [['c', 'u', 'p']], renderUnicodeFractions := false }
        (33/32)
        { start := 0, len := 3, rawText := ['1', '/', '8'], value := 1/8,
          formatKind := .textFraction, separatorStyle := none,
          unitText := none, overrideMode := .noOverride }).changed = true := by
  refine ⟨?_, ?_, ?_⟩
  · intro cfg k t
    simp [renderToken]
  · norm_num [renderToken, scale, renderValue, renderParts, roundSixteenths,
      glyphFor, glyphForIn, glyphTable, natChars, natCharsAux, digitChar,
      fracChars, Int.toNat]
  · norm_num [renderToken, scale]

/-- Claim C2: for every pair of rationals v and k the Scaler is total and returns
exactly the rational product v × k reduced to lowest terms — the result's
numerator and denominator cross-multiply exactly against v and k, the result
is coprime with nonzero denominator — with no failure mode, including zero
and negative factors. -/
theorem C2_scaler_exact (v k : ℚ) :
    scale v k = v * k ∧
    (scale v k).num * ((v.den : ℤ) * (k.den : ℤ)) =
      v.num * k.num * ((scale v k).den : ℤ) ∧
    Nat.Coprime (scale v k).num.natAbs (scale v k).den ∧
    (scale v k).den ≠ 0 := by
  refine ⟨rfl, ?_, (v * k).reduced, (v * k).den_nz⟩
  have hds : (((v * k).den : ℚ)) ≠ 0 := by
    exact_mod_cast (v * k).den_nz
  have hdv : ((v.den : ℚ)) ≠ 0 := by exact_mod_cast v.den_nz
  have hdk : ((k.den : ℚ)) ≠ 0 := by exact_mod_cast k.den_nz
  have hs := Rat.num_div_den (v * k)
  have hv := Rat.num_div_den v
  have hk := Rat.num_div_den k
  rw [div_eq_iff hds] at hs
  rw [div_eq_iff hdv] at hv
  rw [div_eq_iff hdk] at hk
  have key : (((v * k).num : ℚ)) * ((v.den : ℚ) * (k.den : ℚ)) =
      ((v.num : ℚ)) * ((k.num : ℚ)) * (((v * k).den : ℚ)) := by
    rw [hs, hv, hk]
    ring
  exact_mod_cast key

/-- Claim C4: whenever the scale factor supplied to a pipeline pass equals exactly
1, the `changed` flag is false for every token produced by that pass. -/
theorem C4_factor_one_unchanged (cfg : EngineConfig)
    (regs : List MarkerRegion) (cs : List Char) :
    ((runPipeline cfg regs 1 cs).2.all (fun t => !t.changed)) = true := by
  rw [List.all_eq_true]
  intro t ht
  simp only [runPipeline, List.mem_map] at ht
  obtain ⟨tok, _, hmap⟩ := ht
  rw [← hmap]
  simp [renderToken, scale]

/-- Claim C5: for every non-integral scaled rational the Renderer splits it into
whole part and fractional remainder and rounds the remainder to a multiple
t/16 lying within the half-up rounding window — t/16 - 1/32 ≤ remainder <
t/16 + 1/32, so exact halfway points round up — re-normalizing a remainder
that rounds to 1 (t = 16) into an incremented whole part with remainder 0;
an integral scaled rational is rendered as a bare integer. -/
theorem C5_rounding (uni : Bool) (q : ℚ) :
    (q.den = 1 →
      renderParts q = (q.num, 0) ∧ renderValue uni q = natChars q.num.toNat) ∧
    (q.den ≠ 1 →
      ∃ t : ℤ, 0 ≤ t ∧ t ≤ 16 ∧
        (t : ℚ)/16 - 1/32 ≤ q - (⌊q⌋ : ℚ) ∧
        q - (⌊q⌋ : ℚ) < (t : ℚ)/16 + 1/32 ∧
        renderParts q =
          (if t = 16 then (⌊q⌋ + 1, 0) else (⌊q⌋, t.toNat))) := by
  constructor
  · intro h
    have hrp := renderParts_of_den_one h
    refine ⟨hrp, ?_⟩
    rw [renderValue, hrp]
    simp
  · intro _
    obtain ⟨h0, h1⟩ := fract_bounds q
    obtain ⟨hl, hu⟩ := roundSixteenths_bounds h0 h1
    obtain ⟨hwl, hwu⟩ := roundSixteenths_window (q - (⌊q⌋ : ℚ))
    exact ⟨roundSixteenths (q - (⌊q⌋ : ℚ)), hl, hu, by linarith, by linarith,
      renderParts_eq q⟩

/-- Witness for claim C5 at the concrete value 35/32: the remainder 3/32 is
exactly halfway between 1/16 and 2/16 and rounds up to 2/16. -/
theorem C5_rounding_witness : renderParts (35/32 : ℚ) = (1, 2) := by
  obtain ⟨t, h0, h16, hlow, hhigh, heq⟩ :=
    (C5_rounding true (35/32 : ℚ)).2 (by norm_num [Rat.den])
  have hfl : (⌊(35/32 : ℚ)⌋ : ℤ) = 1 := by norm_num
  rw [hfl] at hlow hhigh heq
  have hq1 : (t : ℚ) ≤ 2 := by
    have : ((1 : ℤ) : ℚ) = 1 := by norm_num
    rw [this] at hlow
    linarith
  have hq2 : (1 : ℚ) < (t : ℚ) := by
    have : ((1 : ℤ) : ℚ) = 1 := by norm_num
    rw [this] at hhigh
    linarith
  have ht : t = 2 := by
    have ha : t ≤ 2 := by exact_mod_cast hq1
    have hb : (1 : ℤ) < t := by exact_mod_cast hq2
    omega
  rw [ht] at heq
  rw [heq, if_neg (by omega)]
  norm_num [Int.toNat]

/-- Claim C6: the tokens produced by a single scan of a text block have pairwise
disjoint spans in source order — each token ends no later than the next
starts, since scanning resumes immediately after an accepted span — and at
each accepted position the chosen match is at least as long as the match of
any candidate format starting there. -/
theorem C6_disjoint_longest (cfg : EngineConfig) (regs : List MarkerRegion)
    (cs : List Char) :
    List.Pairwise (fun a b => a.start + a.len ≤ b.start) (scan cfg regs cs) ∧
    ∀ t ∈ scan cfg regs cs, ∀ g m w,
      matchFmt g (cs.drop t.start) = some (m, w) → m ≤ t.len := by
  refine ⟨scan_pairwise cfg regs cs, ?_⟩
  intro t ht g m w hg
  obtain ⟨h1, h2, h3⟩ := scan_inv cfg regs cs t ht
  exact bestMatch_max h2 hg

/-- Witness for claim C6 on the block `45 g`: the scan yields the single token for
`45`, and the competing `Integer` match of length 2 at its position does not
beat the accepted length. -/
theorem C6_disjoint_longest_witness :
    2 ≤ (({ start := 0, len := 2, rawText := ['4', '5'], value := 45,
            formatKind := .integer, separatorStyle := none,
            unitText := some ['g'],
            overrideMode := .noOverride } : QuantityToken)).len :=
  (C6_disjoint_longest
      { unitLexicon := [['g']], renderUnicodeFractions := true } []
      ['4', '5', ' ', 'g']).2
    { start := 0, len := 2, rawText := ['4', '5'], value := 45,
      formatKind := .integer, separatorStyle := none,
      unitText := some ['g'], overrideMode := .noOverride }
    (by decide) .integer 2 45 (by decide)

/-- Claim C7: every stage is total over well-typed inputs — the pipeline is a
plain function; a substring whose span fails every supported grammar is
never emitted as a token (every emitted token's substring matches its own
format's grammar), and a pass emitting no token returns the text unmodified
as plain text. -/
theorem C7_total (cfg : EngineConfig) (regs : List MarkerRegion) (k : ℚ)
    (cs : List Char) :
    (∀ t ∈ scan cfg regs cs,
      matchFmt t.formatKind (cs.drop t.start) = some (t.len, t.value)) ∧
    (scan cfg regs cs = [] → (runPipeline cfg regs k cs).1 = cs) := by
  constructor
  · intro t ht
    exact bestMatch_sound (scan_inv cfg regs cs t ht).2.1
  · intro h
    simp only [runPipeline, h, List.map_nil]
    rw [reassembleAux, List.drop_zero]

/-- Witness for claim C7: a block with no parsable numeral passes through a
factor-2 pipeline pass byte for byte. -/
theorem C7_total_witness :
    (runPipeline { unitLexicon := [['g']], renderUnicodeFractions := true }
        [] 2 ['x', 'y']).1 = ['x', 'y'] :=
  (C7_total { unitLexicon := [['g']], renderUnicodeFractions := true }
      [] 2 ['x', 'y']).2 (by decide)

/-- Claim C8: for every text block and scale factor, a candidate numeral touching
a manual-no-parse marker is rejected by the Scanner even if it would
otherwise qualify — no emitted token's span overlaps the marker — and the
text wrapped in the marker appears unaltered as one contiguous run of the
reassembled output. -/
theorem C8_no_parse_marker (cfg : EngineConfig) (regs : List MarkerRegion)
    (k : ℚ) (cs : List Char) (r : MarkerRegion) (hr : r ∈ regs)
    (hskip : r.force = false) (hab : r.start ≤ r.stop) :
    (∀ t ∈ (runPipeline cfg regs k cs).2,
      overlapsRegion r t.start t.len = false) ∧
    ContiguousIn (sliceOf cs r.start r.stop) (runPipeline cfg regs k cs).1 := by
  have htok : ∀ t ∈ scan cfg regs cs,
      overlapsRegion r t.start t.len = false := by
    intro t ht
    obtain ⟨h1, h2, h3⟩ := scan_inv cfg regs cs t ht
    exact acceptCandidate_no_skip h3 r hr hskip
  constructor
  · intro t ht
    simp only [runPipeline, List.mem_map] at ht
    obtain ⟨tok, htokmem, hmap⟩ := ht
    rw [← hmap]
    simpa [renderToken] using htok tok htokmem
  · simp only [runPipeline]
    refine reassemble_frame cs r.start r.stop hab _ 0 (Nat.zero_le _) ?_
    intro rq hrq
    simp only [List.mem_map] at hrq
    obtain ⟨tok, htokmem, hmap⟩ := hrq
    have hov := htok tok htokmem
    rw [overlapsRegion, Bool.and_eq_false_iff] at hov
    rw [← hmap]
    simp only [renderToken]
    rcases hov with h | h
    · right
      simp only [decide_eq_false_iff_not, not_lt] at h
      exact h
    · left
      simp only [decide_eq_false_iff_not, not_lt] at h
      exact h

/-- Witness for claim C8: the numeral `12` inside the no-parse marker over
offsets 3..5 of `ab 12 cd` is rejected and that slice `12` of the input
survives contiguously in the output of a factor-3 pass. -/
theorem C8_no_parse_marker_witness :
    ContiguousIn
      (sliceOf ['a', 'b', ' ', '1', '2', ' ', 'c', 'd'] 3 5)
      (runPipeline { unitLexicon := [['g']], renderUnicodeFractions := true }
        [{ start := 3, stop := 5, force := false }] 3
        ['a', 'b', ' ', '1', '2', ' ', 'c', 'd']).1 :=
  (C8_no_parse_marker
      { unitLexicon := [['g']], renderUnicodeFractions := true }
      [{ start := 3, stop := 5, force := false }] 3
      ['a', 'b', ' ', '1', '2', ' ', 'c', 'd']
      { start := 3, stop := 5, force := false }
      (by decide) (by decide) (by decide)).2

theorem renderValue_congr (uni : Bool) {x y : ℚ}
    (h : renderParts x = renderParts y) :
    renderValue uni x = renderValue uni y := by
  rw [renderValue, renderValue, h]

/-- Claim C3, amended: for every string that parses under one of the seven
formats, when the parsed value's fractional part is a multiple of 1/16 —
which is the case for every output the renderer itself produces — rendering
the parsed token with scale factor 1 yields text that re-parses to the same
exact rational value, so the rendering only normalizes notation; moreover,
for any parsed value the renderer's factor-1 output re-parses to the
displayed value, that value is on the 1/16 grid, and re-running the renderer
on it at factor 1 reproduces the output text exactly.  (The unamended claim
fails off the 1/16 grid: see the counterexample at `1/3`.) -/
theorem C3_roundtrip (uni : Bool) (cs : List Char) (f : FormatKind)
    (n : Nat) (v : ℚ) (hparse : bestMatch cs = some (f, n, v)) :
    (onSixteenthGrid v →
      ∃ f2, bestMatch (renderValue uni (scale v 1)) =
        some (f2, (renderValue uni (scale v 1)).length, v)) ∧
    (∃ f2 u, bestMatch (renderValue uni (scale v 1)) =
        some (f2, (renderValue uni (scale v 1)).length, u) ∧
      onSixteenthGrid u ∧
      renderValue uni (scale u 1) = renderValue uni (scale v 1)) := by
  have hv0 : 0 ≤ v := bestMatch_nonneg hparse
  have hs : scale v 1 = v := mul_one v
  rw [hs]
  constructor
  · intro hg
    obtain ⟨f2, hf2⟩ := parse_renderValue uni hv0
    rw [partsValue_of_grid hg] at hf2
    exact ⟨f2, hf2⟩
  · obtain ⟨f2, hf2⟩ := parse_renderValue uni hv0
    refine ⟨f2, partsValue v, hf2, partsValue_grid, ?_⟩
    have hu : scale (partsValue v) 1 = partsValue v := mul_one _
    rw [hu]
    exact renderValue_congr uni (renderParts_partsValue v)

/-- Witness for claim C3 at the mixed text number `2 3/4` (value 11/4, on the
sixteenth grid): its factor-1 rendering re-parses to exactly 11/4. -/
theorem C3_roundtrip_witness :
    bestMatch ['2', ' ', '3', '/', '4'] =
      some (.mixedTextNumber, 5, 11/4) ∧
    ∃ f2, bestMatch (renderValue true (scale (11/4) 1)) =
      some (f2, (renderValue true (scale (11/4) 1)).length, 11/4) := by
  have hparse : bestMatch ['2', ' ', '3', '/', '4'] =
      some (.mixedTextNumber, 5, 11/4) := by
    simp +decide [bestMatch, formats, pickLonger, matchFmt, matchInteger,
      matchDecimal, matchFracPart, matchGlyph, matchMixedText,
      matchMixedUnicode, matchDashMixed, splitDigits, List.takeWhile,
      List.dropWhile, digitsToNat, digitVal, glyphValue?, glyphValueIn,
      glyphTable]
    norm_num
  exact ⟨hparse,
    (C3_roundtrip true ['2', ' ', '3', '/', '4'] .mixedTextNumber 5 (11/4)
      hparse).1 ⟨44, by norm_num⟩⟩

/-- Counterexample to claim C3 as stated: the text fraction `1/3` parses to the
value 1/3, but rendering the parsed token with scale factor 1 yields `5/16`
— the renderer rounds every fractional remainder to the nearest sixteenth —
and `5/16` re-parses to 5/16 ≠ 1/3, so the rendering changed the numeric
value rather than only separator spacing or dash style. -/
theorem C3_counterexample :
    bestMatch ['1', '/', '3'] = some (.textFraction, 3, 1/3) ∧
    renderValue true (scale (1/3) 1) = ['5', '/', '1', '6'] ∧
    bestMatch ['5', '/', '1', '6'] = some (.textFraction, 4, 5/16) ∧
    (5/16 : ℚ) ≠ 1/3 := by
  refine ⟨?_, ?_, ?_, by norm_num⟩
  · simp +decide [bestMatch, formats, pickLonger, matchFmt, matchInteger,
      matchDecimal, matchFracPart, matchGlyph, matchMixedText,
      matchMixedUnicode, matchDashMixed, splitDigits, List.takeWhile,
      List.dropWhile, digitsToNat, digitVal, glyphValue?, glyphValueIn,
      glyphTable]
  · norm_num [scale, renderValue, renderParts, roundSixteenths, glyphFor,
      glyphForIn, glyphTable, natChars, natCharsAux, digitChar, fracChars,
      Int.toNat]
  · simp +decide [bestMatch, formats, pickLonger, matchFmt, matchInteger,
      matchDecimal, matchFracPart, matchGlyph, matchMixedText,
      matchMixedUnicode, matchDashMixed, splitDigits, List.takeWhile,
      List.dropWhile, digitsToNat, digitVal, glyphValue?, glyphValueIn,
      glyphTable]

end RecipeView

namespace Plugin

/-- Claim C9: after `loadSettings` completes every settings field is defined:
persisted data is merged over `DEFAULT_SETTINGS`, so when no data was
persisted all defaults apply, any absent field keeps its default — in
particular `renderUnicodeFractions` defaults to true and `sideColumnRegex`
to "Ingredients|Nutrition" — and any present field overwrites its default. -/
theorem C9_load_settings :
    loadSettings none = DEFAULT_SETTINGS ∧
    ∀ p : PersistedData,
      (p.sideColumnRegex = none →
        (loadSettings (some p)).sideColumnRegex = "Ingredients|Nutrition") ∧
      (p.treatH1AsFilename = none →
        (loadSettings (some p)).treatH1AsFilename = false) ∧
      (p.renderUnicodeFractions = none →
        (loadSettings (some p)).renderUnicodeFractions = true) ∧
      (p.singleColumnMaxWidth = none →
        (loadSettings (some p)).singleColumnMaxWidth = 600) ∧
      (p.showBulletsTwoColumn = none →
        (loadSettings (some p)).showBulletsTwoColumn = false) ∧
      (∀ s, p.sideColumnRegex = some s →
        (loadSettings (some p)).sideColumnRegex = s) ∧
      (∀ b, p.renderUnicodeFractions = some b →
        (loadSettings (some p)).renderUnicodeFractions = b) := by
  refine ⟨rfl, ?_⟩
  intro p
  refine ⟨?_, ?_, ?_, ?_, ?_, ?_, ?_⟩ <;>
    first
      | (intro h; simp [loadSettings, DEFAULT_SETTINGS, h])
      | (intro s h; simp [loadSettings, DEFAULT_SETTINGS, h])

/-- Witness for claim C9: persisted data carrying only `treatH1AsFilename` leaves
`renderUnicodeFractions` at its default true. -/
theorem C9_load_settings_witness :
    (loadSettings (some
      { sideColumnRegex := none, treatH1AsFilename := some true,
        renderUnicodeFractions := none, singleColumnMaxWidth := none,
        showBulletsTwoColumn := none })).renderUnicodeFractions = true :=
  ((C9_load_settings.2
    { sideColumnRegex := none, treatH1AsFilename := some true,
      renderUnicodeFractions := none, singleColumnMaxWidth := none,
      showBulletsTwoColumn := none }).2.2.1) rfl

/-- Claim C10: `toggleView` returns true exactly when the most recent leaf's view
type is "markdown" or the recipe view type; with `checking = true` it issues
no view-state write; and any view-state write maps each of the two types to
the other, never a type to itself. -/
theorem C10_toggle_view (checking : Bool) (leafType : Option String) :
    ((toggleView checking leafType).1 = true ↔
      leafType = some "markdown" ∨ leafType = some VIEW_TYPE_RECIPE) ∧
    (checking = true → (toggleView checking leafType).2 = none) ∧
    (∀ ty, (toggleView checking leafType).2 = some ty →
      ((leafType = some "markdown" ∧ ty = VIEW_TYPE_RECIPE) ∨
       (leafType = some VIEW_TYPE_RECIPE ∧ ty = "markdown"))) ∧
    (∀ ty, (toggleView checking leafType).2 = some ty →
      some ty ≠ leafType) := by
  rw [toggleView]
  by_cases h1 : leafType = some "markdown"
  · rw [if_pos h1]
    refine ⟨by simp [h1], ?_, ?_, ?_⟩
    · intro hc
      simp [hc]
    · intro ty hty
      cases checking with
      | true => simp at hty
      | false =>
        simp at hty
        exact Or.inl ⟨h1, hty.symm⟩
    · intro ty hty
      cases checking with
      | true => simp at hty
      | false =>
        simp at hty
        rw [h1, ← hty]
        simp [VIEW_TYPE_RECIPE]
  · rw [if_neg h1]
    by_cases h2 : leafType = some VIEW_TYPE_RECIPE
    · rw [if_pos h2]
      refine ⟨by simp [h1, h2], ?_, ?_, ?_⟩
      · intro hc
        simp [hc]
      · intro ty hty
        cases checking with
        | true => simp at hty
        | false =>
          simp at hty
          exact Or.inr ⟨h2, hty.symm⟩
      · intro ty hty
        cases checking with
        | true => simp at hty
        | false =>
          simp at hty
          rw [h2, ← hty]
          simp [VIEW_TYPE_RECIPE]
    · rw [if_neg h2]
      refine ⟨by simp [h1, h2], by simp, by simp, by simp⟩

/-- Witness for claim C10: with checking on and a markdown leaf, the toggle
reports true and writes no view state. -/
theorem C10_toggle_view_witness :
    (toggleView true (some "markdown")).2 = none :=
  (C10_toggle_view true (some "markdown")).2.1 rfl

end Plugin


